import Mathlib

/-!
Verification of the character-simplification table generator (`src/main.rs`).

The derivation core is a pure computation over in-memory lists; the shallow
embedding below translates it definition by definition.  Rust `HashMap`s keyed
by `Mapping` or `Char` become total functions with the `or_insert` default;
Rust `HashSet`s become duplicate-free lists kept in insertion order, and the
unspecified iteration order of a `HashSet` is made explicit as a reordering
parameter `iter` wherever the code observes it (the `max_by` winner selection
of the conflict-resolution step).
-/

/-- Simplification pair, `struct Mapping` of the source: a traditional character
and its simplified counterpart; equality and hashing use both fields. -/
structure Mapping where
  trad : Char
  simp : Char
deriving DecidableEq, Repr

/-- Reviewed simplification, `struct Review`: a base mapping plus an optional
fixing character. -/
structure Review where
  mapping : Mapping
  fix : Option Char
deriving DecidableEq, Repr

/-- Analogy rule, `struct Rule`: a premise mapping and the mappings it proposes. -/
structure Rule where
  premise : Mapping
  output : List Mapping
deriving DecidableEq, Repr

/-- `Review::derive_mapping`: the effective mapping of a review, with the fix
replacing the simplified character when present. -/
def Review.derive_mapping (r : Review) : Mapping :=
  match r.fix with
  | some fix => ⟨r.mapping.trad, fix⟩
  | none => r.mapping

/-- `derive_mappings` (source lines 56-67): derive every review and drop the
redundant identity mappings (`trad == simp`). -/
def derive_mappings (reviews : List Review) : List Mapping :=
  (reviews.map Review.derive_mapping).filter (fun m => m.trad != m.simp)

/-- `CharExt::is_radical` (source lines 75-79): the fixed closed set of radical
components, usable only as analogy evidence. -/
def Char.is_radical (c : Char) : Bool :=
  c == '訁' || c == '飠' || c == '糹' || c == '𤇾' || c == '𰯲' || c == '釒' ||
  c == '𦥯' || c == '䜌' || c == '睪' || c == '巠' || c == '咼' || c == '昜' ||
  c == '臤' || c == '戠'

/-- State of the scoring pass (source lines 98-111): `scores` embeds
`scores : HashMap<Mapping, i32>` as a total function with the `or_insert(0)`
default, and `inferred_mappings` embeds
`inferred_mappings : HashMap<char, HashSet<Mapping>>` as the duplicate-free
list of candidates per key, in insertion order (`[]` = absent key). -/
structure ScoreSt where
  scores : Mapping → Int
  inferred_mappings : Char → List Mapping

/-- Add `d` to the score entry of `m` (models `entry(m).or_insert(0) ± 1`). -/
def bump (sc : Mapping → Int) (m : Mapping) (d : Int) : Mapping → Int :=
  fun p => if p = m then sc p + d else sc p

/-- Insert `m` into the candidate set of `m.trad` (models
`entry(m.trad).or_insert_with(HashSet::new).insert(m)`). -/
def insertCand (c : Char → List Mapping) (m : Mapping) : Char → List Mapping :=
  fun t => if t = m.trad then (if m ∈ c t then c t else c t ++ [m]) else c t

/-- Accepted-rule inner loop (source lines 102-105): each output mapping gains
one point and becomes a candidate for its traditional character. -/
def acceptOutput : ScoreSt → List Mapping → ScoreSt
  | st, [] => st
  | st, m :: ms => acceptOutput ⟨bump st.scores m 1, insertCand st.inferred_mappings m⟩ ms

/-- Rejected-rule inner loop (source lines 107-109): each output mapping loses
one point; no candidate is inserted. -/
def rejectOutput : ScoreSt → List Mapping → ScoreSt
  | st, [] => st
  | st, m :: ms => rejectOutput ⟨bump st.scores m (-1), st.inferred_mappings⟩ ms

/-- One iteration of the scoring loop (source lines 100-111): accept or reject
the rule according to premise-set membership. -/
def scoreRule (premise : List Mapping) (st : ScoreSt) (r : Rule) : ScoreSt :=
  if r.premise ∈ premise then acceptOutput st r.output else rejectOutput st r.output

/-- The whole scoring pass over the rules in input order. -/
def scorePass (premise : List Mapping) (rules : List Rule) : ScoreSt :=
  rules.foldl (scoreRule premise) ⟨fun _ => 0, fun _ => []⟩

/-- Embedding of Rust `Iterator::max_by` with comparison by score: among equally
maximal elements the LAST one of the iteration order is returned. -/
def maxBySc (sc : Mapping → Int) : List Mapping → Option Mapping
  | [] => none
  | m :: ms =>
    match maxBySc sc ms with
    | none => some m
    | some m2 => some (if sc m2 < sc m then m else m2)

/-- Conflict resolution (source lines 113-118): for each traditional character
with a non-empty candidate set, keep the simplification of the highest-scoring
candidate.  `iter` models the unspecified iteration order of the Rust
`HashSet` that `max_by` consumes. -/
def inferred_simps (iter : List Mapping → List Mapping) (st : ScoreSt) : Char → Option Char :=
  fun t => (maxBySc st.scores (iter (st.inferred_mappings t))).map Mapping.simp

/-- Chaining rewrite of one pool entry (source lines 125-127): when the entry's
simplified character is a key of the resolution, replace the simplified
character by its resolution; the traditional character is untouched. -/
def chainFn (resolved : Char → Option Char) (m : Mapping) : Mapping :=
  match resolved m.simp with
  | some s => ⟨m.trad, s⟩
  | none => m

/-- The chaining pass (source lines 122-128) rewrites every pool entry once.
The `pinned_trads` set built by the same loop is never read afterwards, so it
is not modelled. -/
def chainPass (resolved : Char → Option Char) (pool : List Mapping) : List Mapping :=
  pool.map (chainFn resolved)

/-- Winning outputs of a single accepted rule (source lines 135-139): keep the
output mappings whose simplification equals the resolution of their traditional
character.  The source indexes `inferred_simps[&mapping.trad]`, which panics
when the key is absent; `none` models that panic. -/
def winnersForRule (resolved : Char → Option Char) : List Mapping → Option (List Mapping)
  | [] => some []
  | m :: ms =>
    match resolved m.trad with
    | none => none
    | some s =>
      (winnersForRule resolved ms).map (fun rest => if m.simp = s then m :: rest else rest)

/-- Appending pass over the rules (source lines 131-140): rejected rules are
skipped, accepted rules contribute their winning outputs in input order. -/
def winners (premise : List Mapping) (resolved : Char → Option Char) :
    List Rule → Option (List Mapping)
  | [] => some []
  | r :: rs =>
    if r.premise ∈ premise then
      match winnersForRule resolved r.output, winners premise resolved rs with
      | some a, some b => some (a ++ b)
      | _, _ => none
    else
      winners premise resolved rs

/-- Output deduplication (source lines 144-149): keep an entry when its
traditional character was not seen before (`dup.insert` returning true). -/
def dedupByTrad (seen : List Char) : List Mapping → List Mapping
  | [] => []
  | m :: ms =>
    if m.trad ∈ seen then dedupByTrad seen ms else m :: dedupByTrad (m.trad :: seen) ms

/-- The premise set (source lines 84-93): derived radical mappings plus derived
inferrable-character mappings.  Only membership is observed, so the set is
embedded as a list. -/
def premiseSet (ichar_reviews radical_reviews : List Review) : List Mapping :=
  derive_mappings radical_reviews ++ derive_mappings ichar_reviews

/-- The explicit output pool before chaining (source lines 85-92):
standalone-character mappings first, then inferrable-character mappings. -/
def explicitPool (char_reviews ichar_reviews : List Review) : List Mapping :=
  derive_mappings char_reviews ++ derive_mappings ichar_reviews

/-- The final resolution map of a whole run. -/
def resolvedOf (ichar_reviews radical_reviews : List Review) (rules : List Rule)
    (iter : List Mapping → List Mapping) : Char → Option Char :=
  inferred_simps iter (scorePass (premiseSet ichar_reviews radical_reviews) rules)

/-- The assembled output pool (source lines 122-140): the chained explicit pool
followed by the winning analogy outputs; `none` when the appending pass would
panic on a missing resolution key. -/
def assembledPool (char_reviews ichar_reviews radical_reviews : List Review)
    (rules : List Rule) (iter : List Mapping → List Mapping) : Option (List Mapping) :=
  (winners (premiseSet ichar_reviews radical_reviews)
      (resolvedOf ichar_reviews radical_reviews rules iter) rules).map
    (fun w =>
      chainPass (resolvedOf ichar_reviews radical_reviews rules iter)
        (explicitPool char_reviews ichar_reviews) ++ w)

/-- The list of output lines of `gen` (source lines 83-156): the assembled pool
deduplicated by traditional character, first occurrence winning. -/
def gen (char_reviews ichar_reviews radical_reviews : List Review) (rules : List Rule)
    (iter : List Mapping → List Mapping) : Option (List Mapping) :=
  (assembledPool char_reviews ichar_reviews radical_reviews rules iter).map (dedupByTrad [])

/-- Serialization (source lines 143-154): one `trad TAB simp NEWLINE` line per
surviving mapping. -/
def serializeOutput (out : List Mapping) : String :=
  out.foldl (fun acc m => acc ++ String.mk [m.trad, '\t', m.simp, '\n']) ""

/-- The text `gen` writes to the output file. -/
def gen_text (char_reviews ichar_reviews radical_reviews : List Review) (rules : List Rule)
    (iter : List Mapping → List Mapping) : Option String :=
  (gen char_reviews ichar_reviews radical_reviews rules iter).map serializeOutput

/-- Routing of the second worksheet (source lines 203-211): radical-headed
reviews feed the premise-only group, the rest are inferrable characters. -/
def routeTable2 (reviews : List Review) : List Review × List Review :=
  reviews.partition (fun r => r.mapping.trad.is_radical)

/-- Error message of the rule-text parser (source line 234), naming the owning
premise mapping and the dangling character. -/
def errMsg (premise : Mapping) (c : Char) : String :=
  String.mk ("类推「".data ++ [premise.trad, premise.simp] ++ "」中「".data ++ [c] ++
    "」缺少对应的简化字".data)

/-- Rule-text scanning loop (source lines 224-236): skip whitespace when looking
for a traditional character, then pair it with the IMMEDIATELY following stream
character; a missing partner is a fatal error naming the premise. -/
def parse_rule_output (premise : Mapping) : List Char → Except String (List Mapping)
  | [] => .ok []
  | [c] => if c.isWhitespace then .ok [] else .error (errMsg premise c)
  | c :: s :: rest =>
    if c.isWhitespace then parse_rule_output premise (s :: rest)
    else (parse_rule_output premise rest).map (fun ms => ⟨c, s⟩ :: ms)

/-- One row of the rule worksheet (source lines 215-239): scan the concatenation
of columns 2 and 3 as one character stream; a rule whose parsed output is empty
is discarded (`none`). -/
def parse_rule_row (premise : Mapping) (col2 col3 : String) : Except String (Option Rule) :=
  match parse_rule_output premise (col2.data ++ col3.data) with
  | .error e => .error e
  | .ok out => .ok (if out.isEmpty then none else some ⟨premise, out⟩)

/-- Modelled from the spec words of claim C7 only (to be compared with
`parse_rule_output`): ignore whitespace everywhere and pair each non-whitespace
character with the next non-whitespace character; `none` is the dangling-
character fatal error. -/
def specPairAdjacent : List Char → Option (List Mapping)
  | [] => some []
  | [_] => none
  | a :: b :: rest => (specPairAdjacent rest).map (fun ms => ⟨a, b⟩ :: ms)

/-- Modelled from the spec words of claim C7 only: the claimed pairing applied
to the whitespace-filtered stream. -/
def specRulePairing (l : List Char) : Option (List Mapping) :=
  specPairAdjacent (l.filter (fun c => !c.isWhitespace))

example :
    gen [] [] [⟨⟨'門', '门'⟩, none⟩] [⟨⟨'門', '门'⟩, [⟨'問', '问'⟩]⟩] id =
      some [⟨'問', '问'⟩] := by rfl

example :
    gen [⟨⟨'心', '心'⟩, none⟩] [⟨⟨'門', '门'⟩, none⟩] [] [⟨⟨'門', '门'⟩, [⟨'問', '问'⟩]⟩] id =
      some [⟨'門', '门'⟩, ⟨'問', '问'⟩] := by rfl

/-! ### Helper lemmas: the scoring pass -/

theorem mem_insertCand (c : Char → List Mapping) (m0 m : Mapping) (t : Char) :
    m ∈ insertCand c m0 t ↔ m ∈ c t ∨ (m = m0 ∧ m0.trad = t) := by
  unfold insertCand
  by_cases ht : t = m0.trad
  · rw [if_pos ht]
    by_cases hm : m0 ∈ c t
    · rw [if_pos hm]
      constructor
      · exact fun h => Or.inl h
      · rintro (h | ⟨rfl, _⟩)
        · exact h
        · exact hm
    · rw [if_neg hm]
      rw [List.mem_append, List.mem_singleton]
      constructor
      · rintro (h | rfl)
        · exact Or.inl h
        · exact Or.inr ⟨rfl, ht.symm⟩
      · rintro (h | ⟨rfl, _⟩)
        · exact Or.inl h
        · exact Or.inr rfl
  · rw [if_neg ht]
    constructor
    · exact fun h => Or.inl h
    · rintro (h | ⟨rfl, hq⟩)
      · exact h
      · exact absurd hq.symm ht

theorem acceptOutput_scores (ms : List Mapping) : ∀ (st : ScoreSt) (p : Mapping),
    (acceptOutput st ms).scores p = st.scores p + ms.count p := by
  induction ms with
  | nil => intro st p; simp [acceptOutput]
  | cons m tl ih =>
    intro st p
    rw [show acceptOutput st (m :: tl) =
      acceptOutput ⟨bump st.scores m 1, insertCand st.inferred_mappings m⟩ tl from rfl, ih]
    by_cases h : p = m
    · subst h
      simp only [bump, if_pos rfl, List.count_cons, beq_self_eq_true, if_pos trivial]
      push_cast
      ring
    · have hbeq : (m == p) = false := by
        rw [beq_eq_false_iff_ne]
        exact fun hq => h hq.symm
      simp [bump, h, List.count_cons, hbeq]

theorem rejectOutput_scores (ms : List Mapping) : ∀ (st : ScoreSt) (p : Mapping),
    (rejectOutput st ms).scores p = st.scores p - ms.count p := by
  induction ms with
  | nil => intro st p; simp [rejectOutput]
  | cons m tl ih =>
    intro st p
    rw [show rejectOutput st (m :: tl) =
      rejectOutput ⟨bump st.scores m (-1), st.inferred_mappings⟩ tl from rfl, ih]
    by_cases h : p = m
    · subst h
      simp only [bump, if_pos rfl, List.count_cons, beq_self_eq_true, if_pos trivial]
      push_cast
      ring
    · have hbeq : (m == p) = false := by
        rw [beq_eq_false_iff_ne]
        exact fun hq => h hq.symm
      simp [bump, h, List.count_cons, hbeq]

theorem acceptOutput_cands (ms : List Mapping) : ∀ (st : ScoreSt) (t : Char) (m : Mapping),
    m ∈ (acceptOutput st ms).inferred_mappings t ↔
      m ∈ st.inferred_mappings t ∨ (m ∈ ms ∧ m.trad = t) := by
  induction ms with
  | nil => intro st t m; simp [acceptOutput]
  | cons m0 tl ih =>
    intro st t m
    rw [show acceptOutput st (m0 :: tl) =
      acceptOutput ⟨bump st.scores m0 1, insertCand st.inferred_mappings m0⟩ tl from rfl, ih]
    simp only [mem_insertCand, List.mem_cons]
    constructor
    · rintro ((h | ⟨rfl, ht⟩) | ⟨hm, ht⟩)
      · exact Or.inl h
      · exact Or.inr ⟨Or.inl rfl, ht⟩
      · exact Or.inr ⟨Or.inr hm, ht⟩
    · rintro (h | ⟨(rfl | hm), ht⟩)
      · exact Or.inl (Or.inl h)
      · exact Or.inl (Or.inr ⟨rfl, ht⟩)
      · exact Or.inr ⟨hm, ht⟩

theorem rejectOutput_cands (ms : List Mapping) : ∀ st : ScoreSt,
    (rejectOutput st ms).inferred_mappings = st.inferred_mappings := by
  induction ms with
  | nil => intro st; rfl
  | cons m tl ih =>
    intro st
    rw [show rejectOutput st (m :: tl) =
      rejectOutput ⟨bump st.scores m (-1), st.inferred_mappings⟩ tl from rfl, ih]

theorem scoreRule_cands_mono (premise : List Mapping) (st : ScoreSt) (r : Rule) (t : Char)
    (m : Mapping) (h : m ∈ st.inferred_mappings t) :
    m ∈ (scoreRule premise st r).inferred_mappings t := by
  unfold scoreRule
  by_cases hp : r.premise ∈ premise
  · rw [if_pos hp, acceptOutput_cands]
    exact Or.inl h
  · rw [if_neg hp, rejectOutput_cands]
    exact h

theorem foldl_cands_mono (premise : List Mapping) (rs : List Rule) :
    ∀ (st : ScoreSt) (t : Char) (m : Mapping), m ∈ st.inferred_mappings t →
      m ∈ (rs.foldl (scoreRule premise) st).inferred_mappings t := by
  induction rs with
  | nil => intro st t m h; simpa using h
  | cons r tl ih =>
    intro st t m h
    exact ih _ _ _ (scoreRule_cands_mono premise st r t m h)

theorem mem_cands_of_accepted (premise : List Mapping) (rs : List Rule) (r : Rule) (m : Mapping) :
    r ∈ rs → r.premise ∈ premise → m ∈ r.output →
    ∀ st : ScoreSt, m ∈ (rs.foldl (scoreRule premise) st).inferred_mappings m.trad := by
  induction rs with
  | nil => intro hr; cases hr
  | cons r0 tl ih =>
    intro hr hp hm st
    rcases List.mem_cons.mp hr with rfl | hr'
    · show m ∈ (tl.foldl (scoreRule premise) (scoreRule premise st r)).inferred_mappings m.trad
      refine foldl_cands_mono premise tl _ _ _ ?_
      unfold scoreRule
      rw [if_pos hp, acceptOutput_cands]
      exact Or.inr ⟨hm, rfl⟩
    · exact ih hr' hp hm _

/-! ### Helper lemmas: winner selection -/

theorem maxBySc_spec (sc : Mapping → Int) (l : List Mapping) : ∀ m : Mapping,
    maxBySc sc l = some m → m ∈ l ∧ ∀ y ∈ l, sc y ≤ sc m := by
  induction l with
  | nil => intro m h; simp [maxBySc] at h
  | cons a tl ih =>
    intro m h
    rw [maxBySc] at h
    cases htl : maxBySc sc tl with
    | none =>
      rw [htl] at h
      dsimp only at h
      cases h
      have htlnil : tl = [] := by
        cases tl with
        | nil => rfl
        | cons b tb =>
          rw [maxBySc] at htl
          cases h2 : maxBySc sc tb <;> rw [h2] at htl <;> exact Option.noConfusion htl
      subst htlnil
      refine ⟨List.mem_singleton_self a, ?_⟩
      intro y hy
      rw [List.mem_singleton] at hy
      subst hy
      exact le_refl _
    | some m2 =>
      rw [htl] at h
      dsimp only at h
      obtain ⟨hmem2, hmax2⟩ := ih m2 htl
      by_cases hlt : sc m2 < sc a
      · rw [if_pos hlt] at h
        cases h
        refine ⟨List.mem_cons_self _ _, ?_⟩
        intro y hy
        rcases List.mem_cons.mp hy with rfl | hy'
        · exact le_refl _
        · exact le_of_lt (lt_of_le_of_lt (hmax2 y hy') hlt)
      · rw [if_neg hlt] at h
        cases h
        refine ⟨List.mem_cons_of_mem _ hmem2, ?_⟩
        intro y hy
        rcases List.mem_cons.mp hy with rfl | hy'
        · exact le_of_not_lt hlt
        · exact hmax2 y hy'

theorem maxBySc_isSome (sc : Mapping → Int) (l : List Mapping) (h : l ≠ []) :
    (maxBySc sc l).isSome := by
  cases l with
  | nil => exact absurd rfl h
  | cons a tl =>
    rw [maxBySc]
    cases maxBySc sc tl <;> rfl

/-! ### Helper lemmas: deduplication -/

theorem mem_dedupByTrad (l : List Mapping) : ∀ (seen : List Char) (m : Mapping),
    m ∈ dedupByTrad seen l ↔
      m.trad ∉ seen ∧ l.find? (fun x => x.trad == m.trad) = some m := by
  induction l with
  | nil => intro seen m; simp [dedupByTrad]
  | cons x tl ih =>
    intro seen m
    rw [dedupByTrad]
    by_cases hx : x.trad ∈ seen
    · rw [if_pos hx, ih]
      constructor
      · rintro ⟨hns, hf⟩
        refine ⟨hns, ?_⟩
        rw [List.find?_cons_of_neg]
        · exact hf
        · rw [beq_iff_eq]
          intro heq
          exact hns (heq ▸ hx)
      · rintro ⟨hns, hf⟩
        refine ⟨hns, ?_⟩
        rw [List.find?_cons_of_neg] at hf
        · exact hf
        · rw [beq_iff_eq]
          intro heq
          exact hns (heq ▸ hx)
    · rw [if_neg hx]
      by_cases ht : x.trad = m.trad
      · rw [List.find?_cons_of_pos _ (by rw [beq_iff_eq]; exact ht)]
        simp only [List.mem_cons]
        constructor
        · rintro (rfl | hmem)
          · exact ⟨hx, rfl⟩
          · obtain ⟨hns, _⟩ := (ih _ _).mp hmem
            exact absurd (List.mem_cons_self _ _) (ht ▸ hns)
        · rintro ⟨hns, hf⟩
          cases hf
          exact Or.inl rfl
      · rw [List.find?_cons_of_neg _ (by rw [beq_iff_eq]; exact ht)]
        simp only [List.mem_cons]
        constructor
        · rintro (rfl | hmem)
          · exact absurd rfl ht
          · obtain ⟨hns, hf⟩ := (ih _ _).mp hmem
            rw [List.mem_cons] at hns
            exact ⟨fun hq => hns (Or.inr hq), hf⟩
        · rintro ⟨hns, hf⟩
          refine Or.inr ((ih _ _).mpr ⟨?_, hf⟩)
          rw [List.mem_cons]
          rintro (hq | hq)
          · exact ht hq.symm
          · exact hns hq

theorem dedupByTrad_trad_not_seen (l : List Mapping) (seen : List Char) (m : Mapping)
    (h : m ∈ dedupByTrad seen l) : m.trad ∉ seen :=
  ((mem_dedupByTrad l seen m).mp h).1

theorem mem_of_mem_dedupByTrad (l : List Mapping) (seen : List Char) (m : Mapping)
    (h : m ∈ dedupByTrad seen l) : m ∈ l :=
  List.mem_of_find?_eq_some ((mem_dedupByTrad l seen m).mp h).2

theorem dedupByTrad_pairwise (l : List Mapping) : ∀ seen : List Char,
    (dedupByTrad seen l).Pairwise (fun a b => a.trad ≠ b.trad) := by
  induction l with
  | nil => intro seen; simp [dedupByTrad]
  | cons x tl ih =>
    intro seen
    rw [dedupByTrad]
    by_cases hx : x.trad ∈ seen
    · rw [if_pos hx]; exact ih seen
    · rw [if_neg hx]
      refine List.Pairwise.cons ?_ (ih _)
      intro b hb heq
      exact dedupByTrad_trad_not_seen tl _ b hb (heq ▸ List.mem_cons_self _ _)

/-! ### Helper lemmas: the appending pass and chaining -/

theorem winnersForRule_sound (resolved : Char → Option Char) (out : List Mapping) :
    ∀ a : List Mapping, winnersForRule resolved out = some a →
      ∀ m ∈ a, m ∈ out ∧ resolved m.trad = some m.simp := by
  induction out with
  | nil =>
    intro a h m hm
    rw [winnersForRule] at h
    cases h
    cases hm
  | cons m0 tl ih =>
    intro a h m hm
    rw [winnersForRule] at h
    cases hres : resolved m0.trad with
    | none => rw [hres] at h; exact Option.noConfusion h
    | some s =>
      rw [hres] at h
      dsimp only at h
      cases htl : winnersForRule resolved tl with
      | none => rw [htl] at h; exact Option.noConfusion h
      | some rest =>
        rw [htl] at h
        dsimp only [Option.map] at h
        cases h
        by_cases hs : m0.simp = s
        · rw [if_pos hs] at hm
          rcases List.mem_cons.mp hm with rfl | hm'
          · exact ⟨List.mem_cons_self _ _, by rw [hres, hs]⟩
          · obtain ⟨h1, h2⟩ := ih rest htl m hm'
            exact ⟨List.mem_cons_of_mem _ h1, h2⟩
        · rw [if_neg hs] at hm
          obtain ⟨h1, h2⟩ := ih rest htl m hm
          exact ⟨List.mem_cons_of_mem _ h1, h2⟩

theorem winners_sound (premise : List Mapping) (resolved : Char → Option Char)
    (rs : List Rule) : ∀ w : List Mapping, winners premise resolved rs = some w →
      ∀ m ∈ w, ∃ r : Rule, r ∈ rs ∧ r.premise ∈ premise ∧ m ∈ r.output := by
  induction rs with
  | nil =>
    intro w h m hm
    rw [winners] at h
    cases h
    cases hm
  | cons r tl ih =>
    intro w h m hm
    rw [winners] at h
    by_cases hp : r.premise ∈ premise
    · rw [if_pos hp] at h
      cases ha : winnersForRule resolved r.output with
      | none => rw [ha] at h; exact Option.noConfusion h
      | some a =>
        cases hb : winners premise resolved tl with
        | none => rw [ha, hb] at h; exact Option.noConfusion h
        | some b =>
          rw [ha, hb] at h
          dsimp only at h
          cases h
          rcases List.mem_append.mp hm with hma | hmb
          · exact ⟨r, List.mem_cons_self _ _, hp,
              (winnersForRule_sound resolved r.output a ha m hma).1⟩
          · obtain ⟨r', h1, h2, h3⟩ := ih b hb m hmb
            exact ⟨r', List.mem_cons_of_mem _ h1, h2, h3⟩
    · rw [if_neg hp] at h
      obtain ⟨r', h1, h2, h3⟩ := ih w h m hm
      exact ⟨r', List.mem_cons_of_mem _ h1, h2, h3⟩

theorem winnersForRule_isSome (resolved : Char → Option Char) (out : List Mapping)
    (h : ∀ m ∈ out, (resolved m.trad).isSome) : (winnersForRule resolved out).isSome := by
  induction out with
  | nil => rw [winnersForRule]; rfl
  | cons m0 tl ih =>
    rw [winnersForRule]
    cases hres : resolved m0.trad with
    | none =>
      have := h m0 (List.mem_cons_self _ _)
      rw [hres] at this
      exact absurd this (by simp)
    | some s =>
      have htl := ih (fun m' hm' => h m' (List.mem_cons_of_mem _ hm'))
      cases hw : winnersForRule resolved tl with
      | none => rw [hw] at htl; exact absurd htl (by simp)
      | some rest => rfl

theorem winners_isSome (premise : List Mapping) (resolved : Char → Option Char)
    (rs : List Rule)
    (h : ∀ r : Rule, r ∈ rs → r.premise ∈ premise →
      ∀ m ∈ r.output, (resolved m.trad).isSome) :
    (winners premise resolved rs).isSome := by
  induction rs with
  | nil => rw [winners]; rfl
  | cons r tl ih =>
    rw [winners]
    have htl := ih (fun r' hr' => h r' (List.mem_cons_of_mem _ hr'))
    by_cases hp : r.premise ∈ premise
    · rw [if_pos hp]
      have ha := winnersForRule_isSome resolved r.output (h r (List.mem_cons_self _ _) hp)
      cases hwa : winnersForRule resolved r.output with
      | none => rw [hwa] at ha; exact absurd ha (by simp)
      | some a =>
        cases hwb : winners premise resolved tl with
        | none => rw [hwb] at htl; exact absurd htl (by simp)
        | some b => rfl
    · rw [if_neg hp]
      exact htl

theorem inferred_simps_isSome (iter : List Mapping → List Mapping)
    (hiter : ∀ l : List Mapping, (iter l).Perm l) (st : ScoreSt) (t : Char)
    (h : st.inferred_mappings t ≠ []) : (inferred_simps iter st t).isSome := by
  unfold inferred_simps
  have hne : iter (st.inferred_mappings t) ≠ [] := by
    intro hq
    have hlen := (hiter (st.inferred_mappings t)).length_eq
    rw [hq] at hlen
    exact h (List.length_eq_zero.mp hlen.symm)
  have hsome := maxBySc_isSome st.scores _ hne
  cases hmb : maxBySc st.scores (iter (st.inferred_mappings t)) with
  | none => rw [hmb] at hsome; exact absurd hsome (by simp)
  | some mm => rfl

theorem gen_isSome (char_reviews ichar_reviews radical_reviews : List Review)
    (rules : List Rule) (iter : List Mapping → List Mapping)
    (hiter : ∀ l : List Mapping, (iter l).Perm l) :
    (gen char_reviews ichar_reviews radical_reviews rules iter).isSome := by
  have hw : (winners (premiseSet ichar_reviews radical_reviews)
      (resolvedOf ichar_reviews radical_reviews rules iter) rules).isSome := by
    apply winners_isSome
    intro r hr hp m hm
    apply inferred_simps_isSome iter hiter
    intro hnil
    have hmem := mem_cands_of_accepted (premiseSet ichar_reviews radical_reviews) rules r m
      hr hp hm ⟨fun _ => 0, fun _ => []⟩
    rw [show (scorePass (premiseSet ichar_reviews radical_reviews) rules).inferred_mappings =
      (rules.foldl (scoreRule (premiseSet ichar_reviews radical_reviews))
        ⟨fun _ => 0, fun _ => []⟩).inferred_mappings from rfl] at hnil
    rw [hnil] at hmem
    cases hmem
  rw [gen, assembledPool]
  cases hww : winners (premiseSet ichar_reviews radical_reviews)
      (resolvedOf ichar_reviews radical_reviews rules iter) rules with
  | none => rw [hww] at hw; exact absurd hw (by simp)
  | some w => rfl

theorem chainFn_trad (resolved : Char → Option Char) (m : Mapping) :
    (chainFn resolved m).trad = m.trad := by
  unfold chainFn
  cases resolved m.simp <;> rfl

theorem find?_chainPass (resolved : Char → Option Char) (pool : List Mapping) (A : Char) :
    (chainPass resolved pool).find? (fun x => x.trad == A) =
      (pool.find? (fun x => x.trad == A)).map (chainFn resolved) := by
  unfold chainPass
  rw [List.find?_map]
  have hpred : ((fun x => x.trad == A) ∘ chainFn resolved) =
      (fun x : Mapping => x.trad == A) := by
    funext x
    show ((chainFn resolved x).trad == A) = (x.trad == A)
    rw [chainFn_trad]
  rw [hpred]

theorem gen_first_explicit_line (char_reviews ichar_reviews radical_reviews : List Review)
    (rules : List Rule) (iter : List Mapping → List Mapping)
    (hiter : ∀ l : List Mapping, (iter l).Perm l) (A : Char) (mA : Mapping)
    (hfirst : (explicitPool char_reviews ichar_reviews).find? (fun x => x.trad == A) =
      some mA) :
    ∃ out : List Mapping,
      gen char_reviews ichar_reviews radical_reviews rules iter = some out ∧
      chainFn (resolvedOf ichar_reviews radical_reviews rules iter) mA ∈ out ∧
      ∀ m' : Mapping, m'.trad = A →
        m' ≠ chainFn (resolvedOf ichar_reviews radical_reviews rules iter) mA →
          m' ∉ out := by
  cases hww : winners (premiseSet ichar_reviews radical_reviews)
      (resolvedOf ichar_reviews radical_reviews rules iter) rules with
  | none =>
    have hgen := gen_isSome char_reviews ichar_reviews radical_reviews rules iter hiter
    rw [gen, assembledPool, hww] at hgen
    exact absurd hgen (by simp)
  | some w =>
    have hgeneq : gen char_reviews ichar_reviews radical_reviews rules iter =
        some (dedupByTrad []
          (chainPass (resolvedOf ichar_reviews radical_reviews rules iter)
            (explicitPool char_reviews ichar_reviews) ++ w)) := by
      rw [gen, assembledPool, hww]
      rfl
    have htradA : mA.trad = A := by
      have hp := List.find?_some hfirst
      rwa [beq_iff_eq] at hp
    have hfind : (chainPass (resolvedOf ichar_reviews radical_reviews rules iter)
        (explicitPool char_reviews ichar_reviews) ++ w).find? (fun x => x.trad == A) =
        some (chainFn (resolvedOf ichar_reviews radical_reviews rules iter) mA) := by
      rw [List.find?_append, find?_chainPass, hfirst]
      rfl
    have htradC : (chainFn (resolvedOf ichar_reviews radical_reviews rules iter) mA).trad =
        A := by
      rw [chainFn_trad, htradA]
    refine ⟨_, hgeneq, ?_, ?_⟩
    · rw [mem_dedupByTrad]
      refine ⟨List.not_mem_nil _, ?_⟩
      rw [htradC]
      exact hfind
    · intro m' hm'A hne hmem
      rw [mem_dedupByTrad] at hmem
      obtain ⟨-, hf'⟩ := hmem
      rw [hm'A, hfind] at hf'
      exact hne (Option.some.inj hf').symm

theorem derive_mappings_trad (reviews : List Review) (m : Mapping)
    (h : m ∈ derive_mappings reviews) :
    ∃ rv : Review, rv ∈ reviews ∧ m.trad = rv.mapping.trad := by
  unfold derive_mappings at h
  obtain ⟨hmem, -⟩ := List.mem_filter.mp h
  obtain ⟨rv, hrv, rfl⟩ := List.mem_map.mp hmem
  refine ⟨rv, hrv, ?_⟩
  unfold Review.derive_mapping
  cases rv.fix <;> rfl

/-! ### Claims -/

/-- C1: for every rule processed in input order, an accepted premise adds one
point per occurrence of each proposed mapping (keyed by the full pair, so rules
proposing the identical pair share one accumulator) and inserts the mapping
into the candidate set of its traditional character; a rejected premise
subtracts one point per occurrence and inserts no candidate.  The first
conjunct records that the pass is the in-order fold of this step, so scores are
never reset between rules. -/
theorem c1_rule_scoring (premise : List Mapping) (rules : List Rule) (r : Rule)
    (st : ScoreSt) :
    scorePass premise (rules ++ [r]) = scoreRule premise (scorePass premise rules) r ∧
    (r.premise ∈ premise →
      (∀ p : Mapping, (scoreRule premise st r).scores p = st.scores p + r.output.count p) ∧
      (∀ (t : Char) (m : Mapping),
        m ∈ (scoreRule premise st r).inferred_mappings t ↔
          m ∈ st.inferred_mappings t ∨ (m ∈ r.output ∧ m.trad = t))) ∧
    (r.premise ∉ premise →
      (∀ p : Mapping, (scoreRule premise st r).scores p = st.scores p - r.output.count p) ∧
      (scoreRule premise st r).inferred_mappings = st.inferred_mappings) := by
  refine ⟨?_, ?_, ?_⟩
  · rw [scorePass, scorePass, List.foldl_append]
    rfl
  · intro hp
    rw [scoreRule, if_pos hp]
    exact ⟨acceptOutput_scores r.output st, acceptOutput_cands r.output st⟩
  · intro hp
    rw [scoreRule, if_neg hp]
    exact ⟨rejectOutput_scores r.output st, rejectOutput_cands r.output st ▸ rfl⟩

theorem c1_rule_scoring_witness :
    (Rule.mk ⟨'訁', '讠'⟩ [⟨'說', '说'⟩]).premise ∈ [Mapping.mk '訁' '讠'] ∧
    (scoreRule [Mapping.mk '訁' '讠'] ⟨fun _ => 0, fun _ => []⟩
        (Rule.mk ⟨'訁', '讠'⟩ [⟨'說', '说'⟩])).scores ⟨'說', '说'⟩ =
      (ScoreSt.mk (fun _ => 0) (fun _ => [])).scores ⟨'說', '说'⟩ +
        ((Rule.mk ⟨'訁', '讠'⟩ [⟨'說', '说'⟩]).output.count ⟨'說', '说'⟩ : Int) :=
  ⟨by decide,
    ((c1_rule_scoring [Mapping.mk '訁' '讠'] [] (Rule.mk ⟨'訁', '讠'⟩ [⟨'說', '说'⟩])
      ⟨fun _ => 0, fun _ => []⟩).2.1 (by decide)).1 ⟨'說', '说'⟩⟩

/-- C2: for every traditional character with a non-empty candidate set, the
final resolution maps it to the simplified character of a candidate of maximal
accumulated score (no candidate for that character scores strictly higher).
`hiter` states the modelling fact that the hash-set iteration order is a
permutation of the candidate set. -/
theorem c2_winner_maximal (ichar_reviews radical_reviews : List Review) (rules : List Rule)
    (iter : List Mapping → List Mapping) (hiter : ∀ l : List Mapping, (iter l).Perm l)
    (t : Char)
    (h : (scorePass (premiseSet ichar_reviews radical_reviews) rules).inferred_mappings t
      ≠ []) :
    ∃ m ∈ (scorePass (premiseSet ichar_reviews radical_reviews) rules).inferred_mappings t,
      resolvedOf ichar_reviews radical_reviews rules iter t = some m.simp ∧
      ∀ m' ∈ (scorePass (premiseSet ichar_reviews radical_reviews)
          rules).inferred_mappings t,
        (scorePass (premiseSet ichar_reviews radical_reviews) rules).scores m' ≤
          (scorePass (premiseSet ichar_reviews radical_reviews) rules).scores m := by
  have hne : iter ((scorePass (premiseSet ichar_reviews radical_reviews)
      rules).inferred_mappings t) ≠ [] := by
    intro hq
    have hlen := (hiter ((scorePass (premiseSet ichar_reviews radical_reviews)
      rules).inferred_mappings t)).length_eq
    rw [hq] at hlen
    exact h (List.length_eq_zero.mp hlen.symm)
  have hsome := maxBySc_isSome
    (scorePass (premiseSet ichar_reviews radical_reviews) rules).scores _ hne
  cases hmb : maxBySc (scorePass (premiseSet ichar_reviews radical_reviews) rules).scores
      (iter ((scorePass (premiseSet ichar_reviews radical_reviews)
        rules).inferred_mappings t)) with
  | none => rw [hmb] at hsome; exact absurd hsome (by simp)
  | some mm =>
    obtain ⟨hmem, hmax⟩ := maxBySc_spec _ _ mm hmb
    refine ⟨mm, (hiter _).mem_iff.mp hmem, ?_, ?_⟩
    · rw [resolvedOf, inferred_simps, hmb]
      rfl
    · intro m' hm'
      exact hmax m' ((hiter _).mem_iff.mpr hm')

theorem c2_winner_maximal_witness :
    (scorePass (premiseSet [] [⟨⟨'訁', '讠'⟩, none⟩])
        [⟨⟨'訁', '讠'⟩, [⟨'說', '说'⟩]⟩]).inferred_mappings '說' ≠ [] ∧
    (∃ m ∈ (scorePass (premiseSet [] [⟨⟨'訁', '讠'⟩, none⟩])
        [⟨⟨'訁', '讠'⟩, [⟨'說', '说'⟩]⟩]).inferred_mappings '說',
      resolvedOf [] [⟨⟨'訁', '讠'⟩, none⟩] [⟨⟨'訁', '讠'⟩, [⟨'說', '说'⟩]⟩] id '說' =
        some m.simp ∧
      ∀ m' ∈ (scorePass (premiseSet [] [⟨⟨'訁', '讠'⟩, none⟩])
          [⟨⟨'訁', '讠'⟩, [⟨'說', '说'⟩]⟩]).inferred_mappings '說',
        (scorePass (premiseSet [] [⟨⟨'訁', '讠'⟩, none⟩])
            [⟨⟨'訁', '讠'⟩, [⟨'說', '说'⟩]⟩]).scores m' ≤
          (scorePass (premiseSet [] [⟨⟨'訁', '讠'⟩, none⟩])
            [⟨⟨'訁', '讠'⟩, [⟨'說', '说'⟩]⟩]).scores m) :=
  ⟨by decide,
    c2_winner_maximal [] [⟨⟨'訁', '讠'⟩, none⟩] [⟨⟨'訁', '讠'⟩, [⟨'說', '说'⟩]⟩] id
      (fun l => List.Perm.refl l) '說' (by decide)⟩

/-- C10: the `inferred_simps[&mapping.trad]` indexing of the assembly pass never
panics: the premise set is unchanged between the two passes, so every output
mapping of a rule accepted in the appending pass had its traditional character
inserted into the candidate map during the scoring pass, and the resolution map
has an entry for it.  In the embedding, `none` models the panic, so the whole
run always produces `some` output. -/
theorem c10_assembly_lookup_total (char_reviews ichar_reviews radical_reviews : List Review)
    (rules : List Rule) (iter : List Mapping → List Mapping)
    (hiter : ∀ l : List Mapping, (iter l).Perm l) :
    (gen char_reviews ichar_reviews radical_reviews rules iter).isSome :=
  gen_isSome char_reviews ichar_reviews radical_reviews rules iter hiter

theorem c10_assembly_lookup_total_witness :
    (gen [] [] [⟨⟨'門', '门'⟩, none⟩] [⟨⟨'門', '门'⟩, [⟨'問', '问'⟩]⟩] id).isSome = true :=
  c10_assembly_lookup_total [] [] [⟨⟨'門', '门'⟩, none⟩] [⟨⟨'門', '门'⟩, [⟨'問', '问'⟩]⟩] id
    (fun l => List.Perm.refl l)

/-- C6: the final output is the assembled pool (chained explicit mappings
followed by the analogy winners in rule input order) deduplicated by
traditional character: every output entry is exactly the FIRST pool entry with
its traditional character, and no two output entries share a traditional
character. -/
theorem c6_unique_first_occurrence (char_reviews ichar_reviews radical_reviews : List Review)
    (rules : List Rule) (iter : List Mapping → List Mapping) (pool : List Mapping)
    (h : assembledPool char_reviews ichar_reviews radical_reviews rules iter = some pool) :
    gen char_reviews ichar_reviews radical_reviews rules iter =
      some (dedupByTrad [] pool) ∧
    (dedupByTrad [] pool).Pairwise (fun a b => a.trad ≠ b.trad) ∧
    ∀ m : Mapping, m ∈ dedupByTrad [] pool ↔
      pool.find? (fun x => x.trad == m.trad) = some m := by
  refine ⟨by rw [gen, h]; rfl, dedupByTrad_pairwise pool [], ?_⟩
  intro m
  rw [mem_dedupByTrad]
  simp

theorem c6_unique_first_occurrence_witness :
    assembledPool [⟨⟨'甲', '乙'⟩, none⟩] [] [] [] id = some [⟨'甲', '乙'⟩] ∧
    (gen [⟨⟨'甲', '乙'⟩, none⟩] [] [] [] id =
      some (dedupByTrad [] [⟨'甲', '乙'⟩]) ∧
    (dedupByTrad [] [(⟨'甲', '乙'⟩ : Mapping)]).Pairwise (fun a b => a.trad ≠ b.trad) ∧
    ∀ m : Mapping, m ∈ dedupByTrad [] [(⟨'甲', '乙'⟩ : Mapping)] ↔
      ([(⟨'甲', '乙'⟩ : Mapping)]).find? (fun x => x.trad == m.trad) = some m) :=
  ⟨rfl, c6_unique_first_occurrence [⟨⟨'甲', '乙'⟩, none⟩] [] [] [] id [⟨'甲', '乙'⟩] rfl⟩

/-- C3 counterexample: self-mappings DO reach the serialized output.  With the
radical review 訁→讠 as accepted premise, a rule whose output column contains
the pair 乂乂 puts the identity candidate 乂→乂 into the candidate map, it wins
its (singleton) resolution, and the assembly pass emits the line 乂→乂. -/
theorem c3_counterexample :
    gen [] [] [⟨⟨'訁', '讠'⟩, none⟩] [⟨⟨'訁', '讠'⟩, [⟨'乂', '乂'⟩]⟩] id =
      some [⟨'乂', '乂'⟩] ∧
    (Mapping.mk '乂' '乂').trad = (Mapping.mk '乂' '乂').simp :=
  ⟨rfl, rfl⟩

/-- C3 amended: identity mappings are filtered at review-derivation time, so no
self-mapping ever originates from a review (the explicit pools contain none
before chaining); however, accepted rule outputs with equal characters, and the
chaining rewrite, can still place self-mappings in the final output. -/
theorem c3_no_self_mapping_from_reviews (reviews : List Review) (m : Mapping)
    (h : m ∈ derive_mappings reviews) : m.trad ≠ m.simp := by
  unfold derive_mappings at h
  exact bne_iff_ne.mp (List.mem_filter.mp h).2

theorem c3_no_self_mapping_from_reviews_witness :
    (Mapping.mk '甲' '乙') ∈ derive_mappings [⟨⟨'甲', '乙'⟩, none⟩] ∧
    (Mapping.mk '甲' '乙').trad ≠ (Mapping.mk '甲' '乙').simp :=
  ⟨by decide, c3_no_self_mapping_from_reviews [⟨⟨'甲', '乙'⟩, none⟩] ⟨'甲', '乙'⟩ (by decide)⟩

/-- C4 counterexample: the chained line can be shadowed by an earlier explicit
entry with the same traditional character.  Here the explicit pool is
[甲→丁, 甲→乙], the resolution maps 乙 to 丙, the second pool entry is indeed
rewritten to 甲→丙, but deduplication keeps the earlier 甲→丁, so the claimed
line 甲→丙 is NOT in the final output. -/
theorem c4_counterexample :
    (Mapping.mk '甲' '乙') ∈ explicitPool [⟨⟨'甲', '丁'⟩, none⟩, ⟨⟨'甲', '乙'⟩, none⟩] [] ∧
    resolvedOf [] [⟨⟨'訁', '讠'⟩, none⟩] [⟨⟨'訁', '讠'⟩, [⟨'乙', '丙'⟩]⟩] id '乙' =
      some '丙' ∧
    gen [⟨⟨'甲', '丁'⟩, none⟩, ⟨⟨'甲', '乙'⟩, none⟩] [] [⟨⟨'訁', '讠'⟩, none⟩]
        [⟨⟨'訁', '讠'⟩, [⟨'乙', '丙'⟩]⟩] id =
      some [⟨'甲', '丁'⟩, ⟨'乙', '丙'⟩] ∧
    (Mapping.mk '甲' '丙') ∉ [Mapping.mk '甲' '丁', Mapping.mk '乙' '丙'] :=
  ⟨by decide, rfl, rfl, by decide⟩

/-- C4 amended: one-hop chaining holds for the FIRST explicit-pool entry of each
traditional character.  If the first pool entry with traditional character A is
A→B and the final resolution maps B to C, then only the simp field is replaced,
the final output contains the line A→C, and the line for A is exactly A→C (the
substitution is a single pass: even when C itself is a resolution key, the line
stays A→C).  Later explicit entries with the same traditional character are
also rewritten but lose deduplication. -/
theorem c4_one_hop_chaining (char_reviews ichar_reviews radical_reviews : List Review)
    (rules : List Rule) (iter : List Mapping → List Mapping)
    (hiter : ∀ l : List Mapping, (iter l).Perm l) (A B C : Char)
    (hfirst : (explicitPool char_reviews ichar_reviews).find? (fun x => x.trad == A) =
      some ⟨A, B⟩)
    (hres : resolvedOf ichar_reviews radical_reviews rules iter B = some C) :
    ∃ out : List Mapping,
      gen char_reviews ichar_reviews radical_reviews rules iter = some out ∧
      ⟨A, C⟩ ∈ out ∧ ∀ E : Char, E ≠ C → ⟨A, E⟩ ∉ out := by
  obtain ⟨out, hout, hmem, hnot⟩ := gen_first_explicit_line char_reviews ichar_reviews
    radical_reviews rules iter hiter A ⟨A, B⟩ hfirst
  have hchain : chainFn (resolvedOf ichar_reviews radical_reviews rules iter) ⟨A, B⟩ =
      ⟨A, C⟩ := by
    unfold chainFn
    show (match resolvedOf ichar_reviews radical_reviews rules iter B with
      | some s => Mapping.mk A s
      | none => Mapping.mk A B) = Mapping.mk A C
    rw [hres]
  rw [hchain] at hmem hnot
  refine ⟨out, hout, hmem, ?_⟩
  intro E hE
  exact hnot ⟨A, E⟩ rfl (fun hq => hE (congrArg Mapping.simp hq))

theorem c4_one_hop_chaining_witness :
    (explicitPool [⟨⟨'甲', '乙'⟩, none⟩] []).find? (fun x => x.trad == '甲') =
      some ⟨'甲', '乙'⟩ ∧
    resolvedOf [] [⟨⟨'訁', '讠'⟩, none⟩] [⟨⟨'訁', '讠'⟩, [⟨'乙', '丙'⟩]⟩] id '乙' =
      some '丙' ∧
    ∃ out : List Mapping,
      gen [⟨⟨'甲', '乙'⟩, none⟩] [] [⟨⟨'訁', '讠'⟩, none⟩]
        [⟨⟨'訁', '讠'⟩, [⟨'乙', '丙'⟩]⟩] id = some out ∧
      (⟨'甲', '丙'⟩ : Mapping) ∈ out ∧ ∀ E : Char, E ≠ '丙' → (⟨'甲', E⟩ : Mapping) ∉ out :=
  ⟨rfl, rfl,
    c4_one_hop_chaining [⟨⟨'甲', '乙'⟩, none⟩] [] [⟨⟨'訁', '讠'⟩, none⟩]
      [⟨⟨'訁', '讠'⟩, [⟨'乙', '丙'⟩]⟩] id (fun l => List.Perm.refl l) '甲' '乙' '丙' rfl rfl⟩

/-- C5 counterexample: with TWO explicit reviews for the same traditional
character (甲→丁 then 甲→乙) and an accepted rule proposing 甲→丙, the final
output keeps the earlier 甲→丁, so it contains neither the claimed 甲→乙 nor
甲→丙 — the claim as stated (the output contains A→B) fails. -/
theorem c5_counterexample :
    (Mapping.mk '甲' '乙') ∈ explicitPool [⟨⟨'甲', '丁'⟩, none⟩, ⟨⟨'甲', '乙'⟩, none⟩] [] ∧
    (Rule.mk ⟨'訁', '讠'⟩ [⟨'甲', '丙'⟩]).premise ∈ premiseSet [] [⟨⟨'訁', '讠'⟩, none⟩] ∧
    (Mapping.mk '甲' '丙') ∈ (Rule.mk ⟨'訁', '讠'⟩ [⟨'甲', '丙'⟩]).output ∧
    resolvedOf [] [⟨⟨'訁', '讠'⟩, none⟩] [⟨⟨'訁', '讠'⟩, [⟨'甲', '丙'⟩]⟩] id '乙' = none ∧
    gen [⟨⟨'甲', '丁'⟩, none⟩, ⟨⟨'甲', '乙'⟩, none⟩] [] [⟨⟨'訁', '讠'⟩, none⟩]
        [⟨⟨'訁', '讠'⟩, [⟨'甲', '丙'⟩]⟩] id = some [⟨'甲', '丁'⟩] ∧
    (Mapping.mk '甲' '乙') ∉ [Mapping.mk '甲' '丁'] :=
  ⟨by decide, by decide, by decide, rfl, rfl, by decide⟩

/-- C5 amended: explicit precedence holds for the FIRST explicit-pool entry of
each traditional character.  If the first pool entry with traditional character
A is A→B, B is not a resolution key, and an unrelated accepted rule proposes
A→C with C ≠ B, then the final output contains A→B and not A→C: the explicit
entry precedes all analogy-derived entries and wins deduplication. -/
theorem c5_explicit_precedence (char_reviews ichar_reviews radical_reviews : List Review)
    (rules : List Rule) (iter : List Mapping → List Mapping)
    (hiter : ∀ l : List Mapping, (iter l).Perm l) (A B C : Char) (r : Rule)
    (hfirst : (explicitPool char_reviews ichar_reviews).find? (fun x => x.trad == A) =
      some ⟨A, B⟩)
    (hnokey : resolvedOf ichar_reviews radical_reviews rules iter B = none)
    (hCB : C ≠ B) (hr : r ∈ rules)
    (hacc : r.premise ∈ premiseSet ichar_reviews radical_reviews)
    (hprop : (⟨A, C⟩ : Mapping) ∈ r.output) :
    ∃ out : List Mapping,
      gen char_reviews ichar_reviews radical_reviews rules iter = some out ∧
      ⟨A, B⟩ ∈ out ∧ ⟨A, C⟩ ∉ out := by
  obtain ⟨out, hout, hmem, hnot⟩ := gen_first_explicit_line char_reviews ichar_reviews
    radical_reviews rules iter hiter A ⟨A, B⟩ hfirst
  have hchain : chainFn (resolvedOf ichar_reviews radical_reviews rules iter) ⟨A, B⟩ =
      ⟨A, B⟩ := by
    unfold chainFn
    show (match resolvedOf ichar_reviews radical_reviews rules iter B with
      | some s => Mapping.mk A s
      | none => Mapping.mk A B) = Mapping.mk A B
    rw [hnokey]
  rw [hchain] at hmem hnot
  refine ⟨out, hout, hmem, ?_⟩
  exact hnot ⟨A, C⟩ rfl (fun hq => hCB (congrArg Mapping.simp hq))

theorem c5_explicit_precedence_witness :
    (explicitPool [⟨⟨'甲', '乙'⟩, none⟩] []).find? (fun x => x.trad == '甲') =
      some ⟨'甲', '乙'⟩ ∧
    resolvedOf [] [⟨⟨'訁', '讠'⟩, none⟩] [⟨⟨'訁', '讠'⟩, [⟨'甲', '丙'⟩]⟩] id '乙' = none ∧
    ∃ out : List Mapping,
      gen [⟨⟨'甲', '乙'⟩, none⟩] [] [⟨⟨'訁', '讠'⟩, none⟩]
        [⟨⟨'訁', '讠'⟩, [⟨'甲', '丙'⟩]⟩] id = some out ∧
      (⟨'甲', '乙'⟩ : Mapping) ∈ out ∧ (⟨'甲', '丙'⟩ : Mapping) ∉ out :=
  ⟨rfl, rfl,
    c5_explicit_precedence [⟨⟨'甲', '乙'⟩, none⟩] [] [⟨⟨'訁', '讠'⟩, none⟩]
      [⟨⟨'訁', '讠'⟩, [⟨'甲', '丙'⟩]⟩] id (fun l => List.Perm.refl l) '甲' '乙' '丙'
      (Rule.mk ⟨'訁', '讠'⟩ [⟨'甲', '丙'⟩]) rfl rfl (by decide) (by decide) (by decide)
      (by decide)⟩

/-- C8: the output is NOT independent of the hash iteration order.  Two rules
with the same accepted premise propose 乂→又 and 乂→人, each with score 1; both
the identity order and its reverse are permutations of the candidate set (any
`HashSet` iteration is), yet `max_by` keeps the LAST maximal element of the
iteration order, so the two orders produce different output lines.  Rust's
`HashMap`/`HashSet` iteration order is unspecified and randomized per process,
so two runs on the same input may differ byte-wise. -/
theorem c8_tiebreak_order_dependent :
    (∀ l : List Mapping, (id l).Perm l) ∧
    (∀ l : List Mapping, (l.reverse).Perm l) ∧
    gen [] [] [⟨⟨'訁', '讠'⟩, none⟩]
        [⟨⟨'訁', '讠'⟩, [⟨'乂', '又'⟩]⟩, ⟨⟨'訁', '讠'⟩, [⟨'乂', '人'⟩]⟩] id ≠
      gen [] [] [⟨⟨'訁', '讠'⟩, none⟩]
        [⟨⟨'訁', '讠'⟩, [⟨'乂', '又'⟩]⟩, ⟨⟨'訁', '讠'⟩, [⟨'乂', '人'⟩]⟩]
        (fun l => l.reverse) :=
  ⟨fun l => List.Perm.refl l, fun l => List.reverse_perm l, by decide⟩

/-- C9 counterexample: a radical review is routed to the premise-only group,
yet the very same mapping 訁→讠 appears as a line of the final output, because
an accepted rule lists the radical pair in its own output columns and nothing
filters radicals out of rule outputs. -/
theorem c9_counterexample :
    ('訁').is_radical = true ∧
    routeTable2 [⟨⟨'訁', '讠'⟩, none⟩] = ([⟨⟨'訁', '讠'⟩, none⟩], []) ∧
    (Review.mk ⟨'訁', '讠'⟩ none).derive_mapping ∈ premiseSet [] [⟨⟨'訁', '讠'⟩, none⟩] ∧
    gen [] [] [⟨⟨'訁', '讠'⟩, none⟩] [⟨⟨'訁', '讠'⟩, [⟨'訁', '讠'⟩]⟩] id =
      some [⟨'訁', '讠'⟩] :=
  ⟨rfl, by decide, by decide, rfl⟩

/-- C9 amended: radical-headed reviews feed the premise set only and never put
a line in the output through the review path: when every standalone-character
and inferrable-character review has a non-radical traditional character (as the
worksheet routing guarantees for the second worksheet), any output line whose
traditional character is a radical must come from the output list of an
accepted rule. -/
theorem c9_radical_lines_only_from_rules (char_reviews ichar_reviews
    radical_reviews : List Review) (rules : List Rule)
    (iter : List Mapping → List Mapping)
    (hchar : ∀ rv ∈ char_reviews, rv.mapping.trad.is_radical = false)
    (hichar : ∀ rv ∈ ichar_reviews, rv.mapping.trad.is_radical = false)
    (out : List Mapping)
    (hout : gen char_reviews ichar_reviews radical_reviews rules iter = some out)
    (m : Mapping) (hm : m ∈ out) (hrad : m.trad.is_radical = true) :
    ∃ r : Rule, r ∈ rules ∧ r.premise ∈ premiseSet ichar_reviews radical_reviews ∧
      m ∈ r.output := by
  cases hww : winners (premiseSet ichar_reviews radical_reviews)
      (resolvedOf ichar_reviews radical_reviews rules iter) rules with
  | none => rw [gen, assembledPool, hww] at hout; exact Option.noConfusion hout
  | some w =>
    rw [gen, assembledPool, hww] at hout
    have hout2 := Option.some.inj hout
    rw [← hout2] at hm
    have hpool := mem_of_mem_dedupByTrad _ _ _ hm
    rcases List.mem_append.mp hpool with hchained | hw
    · exfalso
      obtain ⟨m0, hm0, heq⟩ := List.mem_map.mp hchained
      rw [← heq, chainFn_trad] at hrad
      rcases List.mem_append.mp hm0 with h1 | h2
      · obtain ⟨rv, hrv, htrad⟩ := derive_mappings_trad _ _ h1
        rw [htrad, hchar rv hrv] at hrad
        exact Bool.noConfusion hrad
      · obtain ⟨rv, hrv, htrad⟩ := derive_mappings_trad _ _ h2
        rw [htrad, hichar rv hrv] at hrad
        exact Bool.noConfusion hrad
    · exact winners_sound _ _ rules w hww m hw

theorem c9_radical_lines_only_from_rules_witness :
    ∃ r : Rule, r ∈ [Rule.mk ⟨'訁', '讠'⟩ [⟨'訁', '讠'⟩]] ∧
      r.premise ∈ premiseSet [] [⟨⟨'訁', '讠'⟩, none⟩] ∧
      (⟨'訁', '讠'⟩ : Mapping) ∈ r.output :=
  c9_radical_lines_only_from_rules [] [] [⟨⟨'訁', '讠'⟩, none⟩]
    [Rule.mk ⟨'訁', '讠'⟩ [⟨'訁', '讠'⟩]] id
    (fun rv h => absurd h (List.not_mem_nil rv))
    (fun rv h => absurd h (List.not_mem_nil rv))
    [⟨'訁', '讠'⟩] rfl ⟨'訁', '讠'⟩ (by decide) rfl

/-! ### Helper lemmas: rule-text parsing -/

theorem errMsg_mem (premise : Mapping) (c : Char) :
    premise.trad ∈ (errMsg premise c).data ∧ premise.simp ∈ (errMsg premise c).data := by
  have hdata : (errMsg premise c).data =
      "类推「".data ++ [premise.trad, premise.simp] ++ "」中「".data ++ [c] ++
        "」缺少对应的简化字".data := rfl
  rw [hdata]
  constructor <;> simp

theorem parse_rule_output_no_ws (premise : Mapping) :
    ∀ (n : Nat) (l : List Char), l.length ≤ n → (∀ c ∈ l, c.isWhitespace = false) →
      (parse_rule_output premise l).toOption = specPairAdjacent l := by
  intro n
  induction n with
  | zero =>
    intro l hlen _
    have hnil : l = [] := List.length_eq_zero.mp (Nat.le_zero.mp hlen)
    subst hnil
    rfl
  | succ n ih =>
    intro l hlen hws
    cases l with
    | nil => rfl
    | cons c cs =>
      cases cs with
      | nil =>
        rw [parse_rule_output,
          if_neg (by rw [hws c (List.mem_cons_self _ _)]; exact Bool.false_ne_true)]
        rfl
      | cons s rest =>
        rw [parse_rule_output,
          if_neg (by rw [hws c (List.mem_cons_self _ _)]; exact Bool.false_ne_true)]
        have hrest : rest.length ≤ n := by
          simp only [List.length_cons] at hlen
          omega
        have hrec := ih rest hrest
          (fun x hx => hws x (List.mem_cons_of_mem _ (List.mem_cons_of_mem _ hx)))
        rw [show specPairAdjacent (c :: s :: rest) =
          (specPairAdjacent rest).map (fun ms => ⟨c, s⟩ :: ms) from rfl, ← hrec]
        cases parse_rule_output premise rest <;> rfl

theorem parse_rule_output_error (premise : Mapping) :
    ∀ (n : Nat) (l : List Char) (e : String), l.length ≤ n →
      parse_rule_output premise l = .error e →
      ∃ c : Char, c.isWhitespace = false ∧ e = errMsg premise c := by
  intro n
  induction n with
  | zero =>
    intro l e hlen h
    have hnil : l = [] := List.length_eq_zero.mp (Nat.le_zero.mp hlen)
    subst hnil
    rw [parse_rule_output] at h
    exact Except.noConfusion h
  | succ n ih =>
    intro l e hlen h
    cases l with
    | nil =>
      rw [parse_rule_output] at h
      exact Except.noConfusion h
    | cons c cs =>
      cases cs with
      | nil =>
        rw [parse_rule_output] at h
        by_cases hws : c.isWhitespace
        · rw [if_pos hws] at h
          exact Except.noConfusion h
        · rw [if_neg hws] at h
          cases h
          refine ⟨c, ?_, rfl⟩
          cases hcb : c.isWhitespace
          · rfl
          · exact absurd hcb hws
      | cons s rest =>
        rw [parse_rule_output] at h
        by_cases hws : c.isWhitespace
        · rw [if_pos hws] at h
          have hlen2 : (s :: rest).length ≤ n := by
            simp only [List.length_cons] at hlen ⊢
            omega
          exact ih (s :: rest) e hlen2 h
        · rw [if_neg hws] at h
          cases hp : parse_rule_output premise rest with
          | error e2 =>
            rw [hp] at h
            dsimp only [Except.map] at h
            cases h
            have hrest : rest.length ≤ n := by
              simp only [List.length_cons] at hlen
              omega
            exact ih rest e hrest hp
          | ok v =>
            rw [hp] at h
            dsimp only [Except.map] at h
            exact Except.noConfusion h

/-- C7 counterexample: whitespace is NOT skipped when looking for the paired
simplified character.  On the stream 甲␣乙丙 the claimed behaviour (pair
non-whitespace characters with the next non-whitespace character) would pair
甲→乙 and fail on the dangling 丙, but the code pairs 甲 with the space
character and then 乙 with 丙, succeeding. -/
theorem c7_counterexample :
    parse_rule_output ⟨'言', '讠'⟩ ['甲', ' ', '乙', '丙'] =
      .ok [⟨'甲', ' '⟩, ⟨'乙', '丙'⟩] ∧
    specRulePairing ['甲', ' ', '乙', '丙'] = none :=
  ⟨rfl, rfl⟩

/-- C7 amended: the parser scans the concatenation of columns 2 and 3 as one
character stream and skips whitespace only while seeking the next TRADITIONAL
character; each traditional character is paired with the immediately following
stream character, whitespace included (on whitespace-free streams this agrees
with the claimed adjacent pairing of the filtered stream).  A dangling unpaired
character is a fatal error whose message names the owning premise mapping's
traditional and simplified characters, and a rule whose parsed output is empty
is discarded before reaching the core. -/
theorem c7_rule_text_parsing :
    (∀ (premise : Mapping) (l : List Char), (∀ c ∈ l, c.isWhitespace = false) →
      (parse_rule_output premise l).toOption = specRulePairing l) ∧
    (∀ (premise : Mapping) (l : List Char) (e : String),
      parse_rule_output premise l = .error e →
      ∃ c : Char, c.isWhitespace = false ∧ e = errMsg premise c ∧
        premise.trad ∈ e.data ∧ premise.simp ∈ e.data) ∧
    (∀ (premise : Mapping) (col2 col3 : String) (r : Rule),
      parse_rule_row premise col2 col3 = .ok (some r) →
      r.premise = premise ∧ r.output ≠ [] ∧
        parse_rule_output premise (col2.data ++ col3.data) = .ok r.output) := by
  refine ⟨?_, ?_, ?_⟩
  · intro premise l hws
    rw [specRulePairing,
      List.filter_eq_self.mpr (fun a ha => by rw [hws a ha]; rfl)]
    exact parse_rule_output_no_ws premise l.length l (le_refl _) hws
  · intro premise l e h
    obtain ⟨c, hc, he⟩ := parse_rule_output_error premise l.length l e (le_refl _) h
    subst he
    exact ⟨c, hc, rfl, (errMsg_mem premise c).1, (errMsg_mem premise c).2⟩
  · intro premise col2 col3 r h
    rw [parse_rule_row] at h
    cases hp : parse_rule_output premise (col2.data ++ col3.data) with
    | error e =>
      rw [hp] at h
      exact Except.noConfusion h
    | ok out =>
      rw [hp] at h
      dsimp only at h
      by_cases hout : out.isEmpty
      · rw [if_pos hout] at h
        exact Option.noConfusion (Except.ok.inj h)
      · rw [if_neg hout] at h
        have hreq := Option.some.inj (Except.ok.inj h)
        subst hreq
        refine ⟨rfl, ?_, rfl⟩
        intro hq
        apply hout
        rw [show (Rule.mk premise out).output = out from rfl] at hq
        rw [hq]
        rfl

theorem c7_rule_text_parsing_witness :
    (parse_rule_output ⟨'言', '讠'⟩ ['甲', '乙']).toOption = specRulePairing ['甲', '乙'] ∧
    ((Rule.mk ⟨'言', '讠'⟩ [⟨'甲', '乙'⟩]).premise = ⟨'言', '讠'⟩ ∧
      (Rule.mk ⟨'言', '讠'⟩ [⟨'甲', '乙'⟩]).output ≠ [] ∧
      parse_rule_output ⟨'言', '讠'⟩ ("甲乙".data ++ "".data) =
        .ok (Rule.mk ⟨'言', '讠'⟩ [⟨'甲', '乙'⟩]).output) :=
  ⟨c7_rule_text_parsing.1 ⟨'言', '讠'⟩ ['甲', '乙'] (by decide),
    c7_rule_text_parsing.2.2 ⟨'言', '讠'⟩ "甲乙" "" (Rule.mk ⟨'言', '讠'⟩ [⟨'甲', '乙'⟩])
      (by rfl)⟩
